import Mathlib

/-!
Verification of the natural-language specification of
`airtable-python-wrapper` (file `airtable/airtable.py`) against a shallow
embedding of its code in Lean 4.

Modelling conventions:
* Python dictionaries with string keys and string values are embedded as
  association lists (`Record`); `dictGet` is `d[k]` / `d.get(k)`,
  `dictSet` is `d[k] = v` (replace in place, append if absent).
* The remote Airtable service is an abstract `Backend`: a function from the
  request data the client actually sends (table name, processed options,
  continuation offset, payloads) to responses.  This is the "simulated
  server" the spec's testable properties speak of.
* Python exceptions are embedded as `Except PyErr`; `PyErr` covers the
  runtime errors reachable in the modelled code paths (`KeyError`,
  `TypeError`, `AttributeError`).
* The generator loop of `get_iter_in_table` need not terminate for an
  arbitrary server, so it is embedded with explicit fuel; every theorem
  assumes enough fuel for the finitely many pages involved.
* `time.sleep` and the wall clock are irrelevant to the pagination claims
  and are elided there; the batch operations (`_batch_request`) are given a
  separate event-trace embedding in which both the HTTP calls and the
  sleeps are visible, so that rate-limit pacing can be stated.
-/

namespace AirtableSpec

/-- A Python dict with string keys and string values: one Airtable record
(or options mapping) as the wrapped code manipulates it. -/
abbrev Record := List (String × String)

/-- `d.get(k)` / `d[k]` lookup on an embedded Python dict. -/
def dictGet (d : Record) (k : String) : Option String :=
  (d.find? (fun p => p.1 = k)).map (fun p => p.2)

/-- `d[k] = v` on an embedded Python dict: replace the binding in place if
the key is present, otherwise append it. -/
def dictSet : Record → String → String → Record
  | [], k, v => [(k, v)]
  | p :: rest, k, v => if p.1 = k then (k, v) :: rest else p :: dictSet rest k v

/-- One decoded JSON response of the list endpoint: the `records` page and
the optional `offset` continuation cursor (`data.get("records", [])` and
`data.get("offset")` in `get_iter_in_table`). -/
structure PageResp where
  records : List Record
  offset : Option String
deriving DecidableEq

/-- The simulated remote service.  Each field models the server side of one
HTTP verb the client issues: `list` is `GET {base}/{table}` with the
processed query options and the (optional) continuation offset; `postRec`,
`patchRec`, `putRec`, `deleteRec` are the single-record
POST/PATCH/PUT/DELETE endpoints, returning the decoded JSON response
record. -/
structure Backend where
  list : String → Record → Option String → PageResp
  postRec : String → Record → Bool → Record
  patchRec : String → String → Record → Bool → Record
  putRec : String → String → Record → Bool → Record
  deleteRec : String → String → Record

/-- Python truthiness of the `offset` cursor in `if not offset: break`:
both a missing cursor and an empty-string cursor are falsy. -/
def truthyOffset : Option String → Bool
  | none => false
  | some s => !(s == "")

/-- The loop body of `get_iter_in_table` (lines 235-242 of
`airtable/airtable.py`): request a page with the current offset, yield the
page, continue with the returned cursor while it is truthy.  The result is
instrumented with the offset that was sent on each request (first
component) so that the requests issued can be stated; the pages yielded are
the second components.  `fuel` bounds the number of loop iterations. -/
def get_iter_core (srv : Option String → PageResp) : Nat → Option String → List (Option String × List Record)
  | 0, _ => []
  | fuel + 1, off =>
      let data := srv off
      (off, data.records) ::
        (if truthyOffset data.offset then get_iter_core srv fuel data.offset else [])

/-- `AirtableBase.get_iter_in_table` (and the table-bound wrapper
`Airtable.get_iter`, which merely fixes `table_name`): the lazy sequence of
pages, starting from no offset. -/
def get_iter_in_table (b : Backend) (fuel : Nat) (table : String) (options : Record) : List (List Record) :=
  (get_iter_core (b.list table options) fuel none).map Prod.snd

/-- The offsets sent on the successive requests of `get_iter_in_table`. -/
def get_iter_requests (b : Backend) (fuel : Nat) (table : String) (options : Record) : List (Option String) :=
  (get_iter_core (b.list table options) fuel none).map Prod.fst

/-- `AirtableBase.get_all_in_table` (and `Airtable.get_all`): extend an
accumulator with every page of the iterator, i.e. the concatenation of all
pages. -/
def get_all_in_table (b : Backend) (fuel : Nat) (table : String) (options : Record) : List Record :=
  (get_iter_in_table b fuel table options).flatten

/-- The claim's simulated N-page server, as a hypothesis on the abstract
server: starting from request offset `off`, the server answers the pages in
order, handing out the continuation cursors `cursors` one by one and
omitting the cursor on the last page.  Cursors must be nonempty strings:
the client treats an empty cursor exactly like an omitted one (Python
falsiness), so an "empty-string cursor" would mean the server omitted it. -/
def Serves (srv : Option String → PageResp) : Option String → List (List Record) → List String → Prop
  | off, [p], [] => srv off = ⟨p, none⟩
  | off, p :: ps, c :: cs => srv off = ⟨p, some c⟩ ∧ c ≠ "" ∧ Serves srv (some c) ps cs
  | _, _, _ => False

theorem Serves.length {srv : Option String → PageResp} :
    ∀ {off pages cursors}, Serves srv off pages cursors → pages.length = cursors.length + 1 := by
  intro off pages cursors h
  induction pages generalizing off cursors with
  | nil => cases cursors <;> simp [Serves] at h
  | cons p ps ih =>
      cases cursors with
      | nil =>
          cases ps with
          | nil => simp
          | cons q qs => simp [Serves] at h
      | cons c cs =>
          cases ps with
          | nil => simp [Serves] at h
          | cons q qs =>
              obtain ⟨-, -, htail⟩ := h
              simpa using ih htail

theorem get_iter_core_serves {srv : Option String → PageResp} :
    ∀ {pages : List (List Record)} {cursors : List String} {off : Option String} {fuel : Nat},
      Serves srv off pages cursors → pages.length ≤ fuel →
      get_iter_core srv fuel off = List.zip (off :: cursors.map some) pages := by
  intro pages
  induction pages with
  | nil => intro cursors off fuel h _; cases cursors <;> simp [Serves] at h
  | cons p ps ih =>
      intro cursors off fuel h hfuel
      obtain ⟨fuel, rfl⟩ : ∃ f, fuel = f + 1 := by
        cases fuel with
        | zero => simp at hfuel
        | succ f => exact ⟨f, rfl⟩
      cases cursors with
      | nil =>
          cases ps with
          | nil =>
              simp only [Serves] at h
              simp [get_iter_core, h, truthyOffset]
          | cons q qs => simp [Serves] at h
      | cons c cs =>
          cases ps with
          | nil => simp [Serves] at h
          | cons q qs =>
              obtain ⟨hsrv, hc, htail⟩ := h
              have hlen : (q :: qs).length ≤ fuel := by
                simpa using Nat.le_of_succ_le_succ hfuel
              have : truthyOffset (some c) = true := by
                simp [truthyOffset, hc]
              simp [get_iter_core, hsrv, this, ih htail hlen, List.zip]

/-- C1: for every simulated server returning `N` pages with continuation
cursors `c1..c(N-1)` and then omitting the cursor, `get_iter_in_table`
yields exactly those `N` pages in order, the requests it issues carry no
offset on the first call and the previous cursor on every later call, and
`get_all_in_table` returns exactly the concatenation of the `N` pages. -/
theorem get_iter_yields_pages_and_get_all_concatenates
    (b : Backend) (table : String) (options : Record)
    (pages : List (List Record)) (cursors : List String) (fuel : Nat)
    (hserves : Serves (b.list table options) none pages cursors)
    (hfuel : pages.length ≤ fuel) :
    get_iter_in_table b fuel table options = pages ∧
    get_iter_requests b fuel table options = none :: cursors.map some ∧
    get_all_in_table b fuel table options = pages.flatten := by
  have hlen : pages.length = cursors.length + 1 := hserves.length
  have hcore := get_iter_core_serves hserves hfuel
  have hlen' : (none :: cursors.map some : List (Option String)).length = pages.length := by
    simp [hlen]
  have hpages : get_iter_in_table b fuel table options = pages := by
    unfold get_iter_in_table
    rw [hcore]
    exact List.map_snd_zip _ _ (le_of_eq hlen'.symm)
  refine ⟨hpages, ?_, ?_⟩
  · unfold get_iter_requests
    rw [hcore]
    exact List.map_fst_zip _ _ (le_of_eq hlen')
  · unfold get_all_in_table
    rw [hpages]

/-- A concrete two-page simulated server for the pagination witness: the
first request (no offset) returns one record and cursor `"c1"`, the request
carrying `"c1"` returns the second page and omits the cursor. -/
def twoPageBackend : Backend where
  list := fun _ _ off =>
    match off with
    | none => ⟨[[("id", "rec1")]], some "c1"⟩
    | some "c1" => ⟨[[("id", "rec2")]], none⟩
    | some _ => ⟨[], none⟩
  postRec := fun _ fields _ => fields
  patchRec := fun _ _ fields _ => fields
  putRec := fun _ _ fields _ => fields
  deleteRec := fun _ rid => [("id", rid), ("deleted", "true")]

theorem get_iter_get_all_witness :
    Serves (twoPageBackend.list "Table 1" []) none [[[("id", "rec1")]], [[("id", "rec2")]]] ["c1"] ∧
    ([[[("id", "rec1")]], [[("id", "rec2")]]] : List (List Record)).length ≤ 2 ∧
    (get_iter_in_table twoPageBackend 2 "Table 1" [] = [[[("id", "rec1")]], [[("id", "rec2")]]] ∧
     get_iter_requests twoPageBackend 2 "Table 1" [] = [none, some "c1"] ∧
     get_all_in_table twoPageBackend 2 "Table 1" [] = [[("id", "rec1")], [("id", "rec2")]]) := by
  refine ⟨⟨rfl, by decide, rfl⟩, by decide, ?_⟩
  exact get_iter_yields_pages_and_get_all_concatenates twoPageBackend "Table 1" []
    [[[("id", "rec1")]], [[("id", "rec2")]]] ["c1"] 2 ⟨rfl, by decide, rfl⟩ (by decide)

theorem dictGet_dictSet_self (d : Record) (k v : String) : dictGet (dictSet d k v) k = some v := by
  induction d with
  | nil => simp [dictGet, dictSet]
  | cons p rest ih =>
      by_cases h : p.1 = k
      · simp [dictSet, h, dictGet]
      · simp only [dictSet, h, if_false]
        simpa [dictGet, List.find?, h] using ih

theorem dictSet_dictSet_self (d : Record) (k v₀ v : String) :
    dictSet (dictSet d k v₀) k v = dictSet d k v := by
  induction d with
  | nil => simp [dictSet]
  | cons p rest ih =>
      by_cases h : p.1 = k
      · simp [dictSet, h]
      · simp [dictSet, h, ih]

/-- Modelled from the spec: `AirtableParams.FormulaParameter.from_name_and_value`
lives in `airtable/params.py`, which is not among the provided sources.  Per
spec section 4.3 it builds the provider equality formula requesting "value of
field equals value" from a field name and value, the pair being embedded into
the formula syntax directly. -/
def from_name_and_value (field_name field_value : String) : String :=
  "\x7b" ++ field_name ++ "\x7d='" ++ field_value ++ "'"

/-- The options mutation shared by `match_in_table` and `search_in_table`
(lines 294-296 and 323-325 of `airtable/airtable.py`): build the equality
formula and store it under the `formula` key of the caller options, replacing
any formula already there. -/
def match_formula_options (field_name field_value : String) (options : Record) : Record :=
  dictSet options "formula" (from_name_and_value field_name field_value)

/-- `AirtableBase.match_in_table` (and `Airtable.match`): run `get_all` with
the generated equality formula and return the first record of the result, or
the empty dict when there is none (the for loop returning on its first
iteration, else the trailing `return` of an empty dict). -/
def match_in_table (b : Backend) (fuel : Nat) (table field_name field_value : String)
    (options : Record) : Record :=
  ((get_all_in_table b fuel table (match_formula_options field_name field_value options)).head?).getD []

/-- `AirtableBase.search_in_table` (and `Airtable.search`): run `get_all` with
the generated equality formula and return all records. -/
def search_in_table (b : Backend) (fuel : Nat) (table field_name field_value : String)
    (options : Record) : List Record :=
  get_all_in_table b fuel table (match_formula_options field_name field_value options)

/-- The Python runtime errors reachable in the embedded code paths. -/
inductive PyErr
  | keyError (key : String)
  | typeError (msg : String)
  | attributeError (msg : String)
deriving DecidableEq

/-- `AirtableBase.delete_by_field_in_table` (and `Airtable.delete_by_field`):
match the first record, then build the record URL from `record["id"]` and
DELETE it.  The subscript raises `KeyError` when the match came back empty,
since unlike its siblings this method has no emptiness guard. -/
def delete_by_field_in_table (b : Backend) (fuel : Nat)
    (table field_name field_value : String) (options : Record) : Except PyErr Record :=
  let record := match_in_table b fuel table field_name field_value options
  match dictGet record "id" with
  | none => Except.error (PyErr.keyError "id")
  | some rid => Except.ok (b.deleteRec table rid)

/-- A Python value as passed positionally between the embedded methods. -/
inductive PyVal
  | str (s : String)
  | dict (d : Record)
  | bool (b : Bool)

/-- `AirtableBase.update_in_table`: PATCH the record URL with the
fields/typecast body and return the decoded response. -/
def update_in_table (b : Backend) (table record_id : String) (fields : Record)
    (typecast : Bool) : Record :=
  b.patchRec table record_id fields typecast

/-- `Airtable.update` through its Python positional-argument interface:
`update(self, record_id, fields, typecast=False)` accepts two or three
positional arguments after `self` and delegates to `update_in_table` on the
bound table; any longer argument list raises `TypeError`.  (Only the arity
aspect of Python calling is modelled; mismatched argument types at arity two
or three are unreachable from the embedded call sites, and the error text is
the one CPython produces for the five-positional-argument call that the
embedded code actually makes.) -/
def update_positional (b : Backend) (self_table : String) : List PyVal → Except PyErr Record
  | [PyVal.str record_id, PyVal.dict fields] =>
      Except.ok (update_in_table b self_table record_id fields false)
  | [PyVal.str record_id, PyVal.dict fields, PyVal.bool typecast] =>
      Except.ok (update_in_table b self_table record_id fields typecast)
  | _ =>
      Except.error (PyErr.typeError
        "update() takes from 3 to 4 positional arguments but 5 were given")

/-- `AirtableBase.update_by_field_in_table` (line 416 of
`airtable/airtable.py`): match first, return an empty dict on no match, and
otherwise call `self.update(table_name, record["id"], fields, typecast)` —
four positional arguments to `Airtable.update`, which takes at most three.
`self_table` is the table bound to the `Airtable` instance (equal to `table`
when reached through `Airtable.update_by_field`). -/
def update_by_field_in_table (b : Backend) (fuel : Nat) (self_table table field_name field_value : String)
    (fields : Record) (typecast : Bool) (options : Record) : Except PyErr Record :=
  let record := match_in_table b fuel table field_name field_value options
  if record.isEmpty then Except.ok []
  else
    match dictGet record "id" with
    | none => Except.error (PyErr.keyError "id")
    | some rid => update_positional b self_table [PyVal.str table, PyVal.str rid, PyVal.dict fields, PyVal.bool typecast]

/-- `Airtable.get_all` through its Python positional-argument interface:
`get_all(self, **options)` accepts no positional argument after `self`, so
any positional argument raises `TypeError` (the error text is the one CPython
produces for the two-positional-argument call the embedded code makes). -/
def get_all_positional (b : Backend) (fuel : Nat) (self_table : String)
    (args : List PyVal) (options : Record) : Except PyErr (List Record) :=
  match args with
  | [] => Except.ok (get_all_in_table b fuel self_table options)
  | _ =>
      Except.error (PyErr.typeError
        "get_all() takes 1 positional argument but 2 were given")

/-- `AirtableBase.mirror_in_table` (lines 537-540 of `airtable/airtable.py`,
also reached from `Airtable.mirror`): it first evaluates
`self.get_all(table_name, **options)` — one positional argument to
`Airtable.get_all`, which takes none — and would then collect `r["id"]` for
every returned record and call `self.batch_delete_in_table`, a method that is
defined on neither `AirtableBase` nor `Airtable` (both classes only define
`batch_delete`), before batch-inserting. -/
def mirror_in_table (b : Backend) (fuel : Nat) (self_table table : String)
    (records : List Record) (options : Record) : Except PyErr (List Record × List Record) := do
  let allRecords ← get_all_positional b fuel self_table [PyVal.str table] options
  let _allRecordIds ← allRecords.mapM (fun r =>
    match dictGet r "id" with
    | some rid => Except.ok rid
    | none => Except.error (PyErr.keyError "id"))
  Except.error (PyErr.attributeError "Airtable object has no attribute batch_delete_in_table")

/-- Helper: under the simulated N-page server hypothesis, `get_all` is the
concatenation of the pages. -/
theorem get_all_of_serves {b : Backend} {fuel : Nat} {table : String} {options : Record}
    {pages : List (List Record)} {cursors : List String}
    (hserves : Serves (b.list table options) none pages cursors)
    (hfuel : pages.length ≤ fuel) :
    get_all_in_table b fuel table options = pages.flatten := by
  have hlen : pages.length = cursors.length + 1 := hserves.length
  have hcore := get_iter_core_serves hserves hfuel
  unfold get_all_in_table get_iter_in_table
  rw [hcore, List.map_snd_zip]
  simp [hlen]

/-- The spec sentence "returns the first page's first record", as written:
the head of the records of the first page the server returns for the
generated equality filter. -/
def first_page_first_record (b : Backend) (table field_name field_value : String)
    (options : Record) : Option Record :=
  (b.list table (match_formula_options field_name field_value options) none).records.head?

/-- A simulated server whose first page is empty but carries a continuation
cursor, while the second page holds a matching record. -/
def skipFirstPageBackend : Backend where
  list := fun _ _ off =>
    match off with
    | none => ⟨[], some "c1"⟩
    | some _ => ⟨[[("id", "rec2"), ("Name", "John")]], none⟩
  postRec := fun _ fields _ => fields
  patchRec := fun _ _ fields _ => fields
  putRec := fun _ _ fields _ => fields
  deleteRec := fun _ rid => [("id", rid)]

/-- C5, counterexample: when the first page is empty but a later page holds a
matching record, `match_in_table` returns that later record — not the first
page's first record (there is none), and not an empty result. -/
theorem match_not_first_page_first_record :
    match_in_table skipFirstPageBackend 2 "Tasks" "Name" "John" [] = [("id", "rec2"), ("Name", "John")] ∧
    first_page_first_record skipFirstPageBackend "Tasks" "Name" "John" [] = none ∧
    match_in_table skipFirstPageBackend 2 "Tasks" "Name" "John" [] ≠ [] :=
  ⟨rfl, rfl, by decide⟩

/-- C5, as amended: `match_in_table` constructs the equality filter formula
from the field name/value pair and passes it as the `formula` option; against
a simulated server answering the generated filter with the given pages it
returns the first record of the concatenation of all pages (the first record
of the `get_all` output), and an empty result when no record matches (all
pages empty). -/
theorem match_formula_and_first_record_of_concatenation
    (b : Backend) (fuel : Nat) (table field_name field_value : String) (options : Record)
    (pages : List (List Record)) (cursors : List String)
    (hserves : Serves (b.list table (match_formula_options field_name field_value options)) none pages cursors)
    (hfuel : pages.length ≤ fuel) :
    dictGet (match_formula_options field_name field_value options) "formula" =
      some (from_name_and_value field_name field_value) ∧
    match_in_table b fuel table field_name field_value options = (pages.flatten.head?).getD [] ∧
    (pages.flatten = [] → match_in_table b fuel table field_name field_value options = []) := by
  have hall := get_all_of_serves hserves hfuel
  refine ⟨dictGet_dictSet_self _ _ _, ?_, ?_⟩
  · unfold match_in_table
    rw [hall]
  · intro hempty
    unfold match_in_table
    rw [hall, hempty]
    rfl

/-- A simulated server with a single one-record page, matching the generated
filter for Name = John. -/
def johnBackend : Backend where
  list := fun _ _ _ => ⟨[[("id", "rec1"), ("Name", "John")]], none⟩
  postRec := fun _ fields _ => fields
  patchRec := fun _ _ fields _ => fields
  putRec := fun _ _ fields _ => fields
  deleteRec := fun _ rid => [("id", rid)]

theorem match_first_record_witness :
    Serves (johnBackend.list "Contacts" (match_formula_options "Name" "John" [])) none
      [[[("id", "rec1"), ("Name", "John")]]] [] ∧
    ([[[("id", "rec1"), ("Name", "John")]]] : List (List Record)).length ≤ 1 ∧
    (dictGet (match_formula_options "Name" "John" []) "formula" =
        some (from_name_and_value "Name" "John") ∧
      match_in_table johnBackend 1 "Contacts" "Name" "John" [] = [("id", "rec1"), ("Name", "John")] ∧
      (([[[("id", "rec1"), ("Name", "John")]]] : List (List Record)).flatten = [] →
        match_in_table johnBackend 1 "Contacts" "Name" "John" [] = [])) :=
  ⟨rfl, by decide,
    match_formula_and_first_record_of_concatenation johnBackend 1 "Contacts" "Name" "John" []
      [[[("id", "rec1"), ("Name", "John")]]] [] rfl (by decide)⟩

/-- C10: in `match_in_table` and `search_in_table` (and hence in the
update-by/replace-by/delete-by-match operations built on them) any
caller-supplied `formula` option is silently overwritten by the generated
equality filter: the transmitted options carry the generated formula, and the
result is the same whatever formula the caller had set. -/
theorem match_search_formula_always_generated
    (b : Backend) (fuel : Nat) (table field_name field_value f₀ : String) (options : Record) :
    dictGet (match_formula_options field_name field_value options) "formula" =
      some (from_name_and_value field_name field_value) ∧
    match_in_table b fuel table field_name field_value (dictSet options "formula" f₀) =
      match_in_table b fuel table field_name field_value options ∧
    search_in_table b fuel table field_name field_value (dictSet options "formula" f₀) =
      search_in_table b fuel table field_name field_value options := by
  refine ⟨dictGet_dictSet_self _ _ _, ?_, ?_⟩
  · unfold match_in_table match_formula_options
    rw [dictSet_dictSet_self]
  · unfold search_in_table match_formula_options
    rw [dictSet_dictSet_self]

/-- A simulated server on which no record matches: every list request
returns an empty page with no cursor. -/
def emptyTableBackend : Backend where
  list := fun _ _ _ => ⟨[], none⟩
  postRec := fun _ fields _ => fields
  patchRec := fun _ _ fields _ => fields
  putRec := fun _ _ fields _ => fields
  deleteRec := fun _ rid => [("id", rid)]

/-- C2: on a table where no record matches the equality filter,
`match_in_table` returns the empty result — but `delete_by_field_in_table`
then evaluates `record["id"]` on that empty dict and raises `KeyError`
instead of returning an empty result. -/
theorem delete_by_field_no_match_raises_keyerror :
    match_in_table emptyTableBackend 1 "Contacts" "Name" "John" [] = [] ∧
    delete_by_field_in_table emptyTableBackend 1 "Contacts" "Name" "John" [] =
      Except.error (PyErr.keyError "id") :=
  ⟨rfl, rfl⟩

/-- C3: when a record matches, `update_by_field_in_table` calls
`self.update(table_name, record["id"], fields, typecast)` — four positional
arguments to `Airtable.update`, which accepts at most three — and raises
`TypeError` instead of issuing the PATCH; when no record matches it returns
the empty result. -/
theorem update_by_field_match_raises_typeerror :
    update_by_field_in_table johnBackend 1 "Contacts" "Contacts" "Name" "John"
        [("Status", "Fired")] false [] =
      Except.error (PyErr.typeError "update() takes from 3 to 4 positional arguments but 5 were given") ∧
    update_by_field_in_table emptyTableBackend 1 "Contacts" "Contacts" "Name" "John"
        [("Status", "Fired")] false [] = Except.ok [] :=
  ⟨rfl, rfl⟩

/-- C4: every call of `mirror_in_table` (and so of `Airtable.mirror`) raises
`TypeError` at its first step, because it passes the table name positionally
to `Airtable.get_all`, which takes no positional argument; no record is ever
deleted or inserted. -/
theorem mirror_always_raises_typeerror (b : Backend) (fuel : Nat) (self_table table : String)
    (records : List Record) (options : Record) :
    mirror_in_table b fuel self_table table records options =
      Except.error (PyErr.typeError "get_all() takes 1 positional argument but 2 were given") := by
  rfl

/-- The numeric value of a hexadecimal digit, if the character is one. -/
def hexVal (c : Char) : Option Nat :=
  if ('0' ≤ c ∧ c ≤ '9') then some (c.toNat - '0'.toNat)
  else if ('a' ≤ c ∧ c ≤ 'f') then some (c.toNat - 'a'.toNat + 10)
  else if ('A' ≤ c ∧ c ≤ 'F') then some (c.toNat - 'A'.toNat + 10)
  else none

/-- `urllib.parse.unquote`, embedded at the character level: every percent
escape of two hex digits is decoded to the corresponding character, anything
else is kept.  (The real function decodes UTF-8 byte sequences; for the
ASCII URLs of this model the character-level reading coincides.) -/
def unquoteChars : List Char → List Char
  | [] => []
  | '%' :: c1 :: c2 :: rest =>
      match hexVal c1, hexVal c2 with
      | some h, some l => Char.ofNat (16 * h + l) :: unquoteChars rest
      | _, _ => '%' :: unquoteChars (c1 :: c2 :: rest)
  | c :: rest => c :: unquoteChars rest

/-- Python `str.replace`, embedded at the character level: replace every
non-overlapping occurrence of `p` in `s` by `r`, scanning left to right (an
empty pattern inserts `r` at every position, as in Python). -/
def pyReplace (s p r : List Char) : List Char :=
  match s, p with
  | s, [] => r ++ s.flatMap (fun c => c :: r)
  | [], _ :: _ => []
  | c :: s', q :: p' =>
      if (q :: p').isPrefixOf (c :: s') then
        r ++ pyReplace (List.drop (q :: p').length (c :: s')) (q :: p') r
      else c :: pyReplace s' (q :: p') r
termination_by s.length
decreasing_by
  · simp only [List.length_drop, List.length_cons]
    omega
  · simp

/-- If the nonempty pattern occurs in the string, the replacement occurs in
the output of `pyReplace`. -/
theorem replacement_infix_of_infix :
    ∀ (s p r : List Char), p ≠ [] → p <:+: s → r <:+: pyReplace s p r := by
  intro s
  induction s with
  | nil =>
      intro p r hne h
      exact absurd (List.infix_nil.mp h) hne
  | cons c s' ih =>
      intro p r hne h
      obtain ⟨q, p', rfl⟩ : ∃ q p', p = q :: p' := by
        cases p with
        | nil => exact absurd rfl hne
        | cons q p' => exact ⟨q, p', rfl⟩
      unfold pyReplace
      by_cases hpre : (q :: p').isPrefixOf (c :: s') = true
      · rw [if_pos hpre]
        exact (List.prefix_append r _).isInfix
      · rw [if_neg hpre]
        have hnotpre : ¬ (q :: p') <+: (c :: s') := by
          intro hp
          exact hpre (List.isPrefixOf_iff_prefix.mpr hp)
        have htail : (q :: p') <:+: s' := by
          rcases List.infix_cons_iff.mp h with hp | hs
          · exact absurd hp hnotpre
          · exact hs
        obtain ⟨u, v, huv⟩ := ih (q :: p') r (by simp) htail
        exact ⟨c :: u, v, by simp [huv]⟩

/-- One HTTP response as `_process_response` sees it: the status code, the
reason phrase, the request URL, and the decoded JSON body (`none` models a
body that is not valid JSON, making `response.json()` raise). -/
structure HttpResponse where
  status : Nat
  reason : List Char
  url : List Char
  body : Option (List (String × String))

/-- The message of the `requests.exceptions.HTTPError` raised by
`response.raise_for_status()` — behaviour of the external `requests`
library, whose documented message format is
"status Client Error: reason for url: url" (Server for 5xx). -/
def httpErrMsg (resp : HttpResponse) : List Char :=
  (toString resp.status).data
    ++ (if resp.status < 500 then " Client Error: " else " Server Error: ").data
    ++ resp.reason ++ " for url: ".data ++ resp.url

/-- `AirtableBase._process_response` (lines 141-164 of
`airtable/airtable.py`, with `IS_IPY = False`): on a 2xx/3xx response return
the decoded JSON; on a 4xx/5xx response take the message of the error raised
by `raise_for_status`, for status 422 replace the URL in it by its
percent-decoded form and append " (Decoded URL)", and if the JSON body
decodes and holds an `error` entry append " [Error: detail]"; the result is
the message of the `HTTPError` re-raised to the caller. -/
def process_response (resp : HttpResponse) : Except (List Char) (Option (List (String × String))) :=
  if 400 ≤ resp.status ∧ resp.status < 600 then
    let msg0 := httpErrMsg resp
    let msg1 :=
      if resp.status = 422 then
        pyReplace msg0 resp.url (unquoteChars resp.url) ++ " (Decoded URL)".data
      else msg0
    let msg2 :=
      match resp.body with
      | none => msg1
      | some d =>
          match dictGet d "error" with
          | some e => msg1 ++ " [Error: ".data ++ e.data ++ "]".data
          | none => msg1
    Except.error msg2
  else
    Except.ok resp.body

/-- C6: every 422 response whose JSON body holds an `error` entry is raised
as an HTTP error whose message contains the percent-decoded request URL and
the server-supplied error detail string. -/
theorem process_response_422_message_contains_decoded_url_and_detail
    (resp : HttpResponse) (d : List (String × String)) (e : String)
    (hstatus : resp.status = 422)
    (hbody : resp.body = some d)
    (herr : dictGet d "error" = some e) :
    ∃ m, process_response resp = Except.error m ∧
      unquoteChars resp.url <:+: m ∧ e.data <:+: m := by
  have hrange : 400 ≤ resp.status ∧ resp.status < 600 := by omega
  refine ⟨pyReplace (httpErrMsg resp) resp.url (unquoteChars resp.url)
      ++ " (Decoded URL)".data ++ " [Error: ".data ++ e.data ++ "]".data, ?_, ?_, ?_⟩
  · simp [process_response, hrange, hstatus, hbody, herr]
  · have hrep : unquoteChars resp.url <:+:
        pyReplace (httpErrMsg resp) resp.url (unquoteChars resp.url) := by
      cases hurl : resp.url with
      | nil => simpa [hurl, unquoteChars] using List.nil_infix
      | cons c cs =>
          have hocc : resp.url <:+: httpErrMsg resp := by
            have hsuf : resp.url <:+ httpErrMsg resp := by
              unfold httpErrMsg
              simp only [← List.append_assoc]
              exact List.suffix_append _ _
            exact hsuf.isInfix
          rw [← hurl]
          exact replacement_infix_of_infix _ _ _ (by simp [hurl]) hocc
    have hpre : (pyReplace (httpErrMsg resp) resp.url (unquoteChars resp.url)) <+:
        pyReplace (httpErrMsg resp) resp.url (unquoteChars resp.url)
          ++ " (Decoded URL)".data ++ " [Error: ".data ++ e.data ++ "]".data := by
      simp only [List.append_assoc]
      exact List.prefix_append _ _
    exact hrep.trans hpre.isInfix
  · exact ⟨pyReplace (httpErrMsg resp) resp.url (unquoteChars resp.url)
      ++ " (Decoded URL)".data ++ " [Error: ".data, "]".data, rfl⟩

/-- A concrete 422 response with a percent-encoded table name in the URL and
an INVALID_FILTER error payload, for the witness. -/
def invalidFilterResponse : HttpResponse where
  status := 422
  reason := "Unprocessable Entity".data
  url := "https://api.airtable.com/v0/appXYZ/Table%201".data
  body := some [("error", "INVALID_FILTER")]

theorem process_response_422_witness :
    invalidFilterResponse.status = 422 ∧
    invalidFilterResponse.body = some [("error", "INVALID_FILTER")] ∧
    dictGet [("error", "INVALID_FILTER")] "error" = some "INVALID_FILTER" ∧
    (∃ m, process_response invalidFilterResponse = Except.error m ∧
      unquoteChars invalidFilterResponse.url <:+: m ∧ "INVALID_FILTER".data <:+: m) :=
  ⟨rfl, rfl, rfl,
    process_response_422_message_contains_decoded_url_and_detail
      invalidFilterResponse [("error", "INVALID_FILTER")] "INVALID_FILTER" rfl rfl rfl⟩

/-- A raw option value as passed to the parameter encoder. -/
inductive ParamValue
  | str (s : String)
  | num (n : Nat)
  | strList (l : List String)
deriving DecidableEq

/-- The errors of the parameter encoder, per spec section 7. -/
inductive ParamError
  | unknownParameter (name : String)
  | validationError (msg : String)
deriving DecidableEq

/-- A wire-format query key, structurally: one constructor per wire key an
option can produce (the sort option produces an indexed field/direction key
pair per entry). -/
inductive WireKey
  | maxRecords
  | view
  | pageSize
  | fieldsKey
  | filterByFormula
  | offsetKey
  | sortField (i : Nat)
  | sortDirection (i : Nat)
deriving DecidableEq

/-- A wire-format query value: a string, a number, or a list of strings
(the repeated-field encoding of the fields option). -/
inductive WireValue
  | s (v : String)
  | n (v : Nat)
  | l (v : List String)
deriving DecidableEq

/-- The recognized option vocabulary, spec section 4.1. -/
def vocab : List String :=
  ["max_records", "view", "page_size", "fields", "sort", "formula", "offset"]

/-- Wire pair of one sort entry: a leading minus sign means descending on
the rest of the entry, otherwise ascending on the entry. -/
def sortEntryWire (i : Nat) (e : String) : List (WireKey × WireValue) :=
  match e.data with
  | '-' :: rest =>
      [(WireKey.sortField i, WireValue.s (String.mk rest)),
       (WireKey.sortDirection i, WireValue.s "desc")]
  | _ =>
      [(WireKey.sortField i, WireValue.s e),
       (WireKey.sortDirection i, WireValue.s "asc")]

/-- Wire pairs of the sort option: parallel indexed field/direction keys,
one pair per entry in order. -/
def sortWire : Nat → List String → List (WireKey × WireValue)
  | _, [] => []
  | i, e :: rest => sortEntryWire i e ++ sortWire (i + 1) rest

/-- Modelled from the spec: the per-option parameter classes of
`AirtableParams` live in `airtable/params.py`, which is not among the
provided sources.  Per spec section 4.1, each recognized option validates
and serializes its value (`fields` accepts a string or list of strings and
uses the repeated-field list encoding; `sort` accepts a string or list with
an optional leading minus for descending and serializes to parallel
field/direction wire keys; `page_size` must be at most 100; `formula` and
`offset` pass through; numeric options must be numbers, string options
strings); an unrecognized option name fails with `UnknownParameterError`, a
recognized option with an invalid value fails with `ValidationError`. -/
def wirePairs : String → ParamValue → Except ParamError (List (WireKey × WireValue))
  | "max_records", ParamValue.num n => Except.ok [(WireKey.maxRecords, WireValue.n n)]
  | "view", ParamValue.str s => Except.ok [(WireKey.view, WireValue.s s)]
  | "page_size", ParamValue.num n =>
      if n ≤ 100 then Except.ok [(WireKey.pageSize, WireValue.n n)]
      else Except.error (ParamError.validationError "page_size must be less than or equal to 100")
  | "fields", ParamValue.str s => Except.ok [(WireKey.fieldsKey, WireValue.l [s])]
  | "fields", ParamValue.strList l => Except.ok [(WireKey.fieldsKey, WireValue.l l)]
  | "sort", ParamValue.str s => Except.ok (sortWire 0 [s])
  | "sort", ParamValue.strList l => Except.ok (sortWire 0 l)
  | "formula", ParamValue.str s => Except.ok [(WireKey.filterByFormula, WireValue.s s)]
  | "offset", ParamValue.str s => Except.ok [(WireKey.offsetKey, WireValue.s s)]
  | name, _ =>
      if name ∈ vocab then Except.error (ParamError.validationError name)
      else Except.error (ParamError.unknownParameter name)

/-- The option name a wire key is derived from. -/
def keyOwner : WireKey → String
  | WireKey.maxRecords => "max_records"
  | WireKey.view => "view"
  | WireKey.pageSize => "page_size"
  | WireKey.fieldsKey => "fields"
  | WireKey.filterByFormula => "formula"
  | WireKey.offsetKey => "offset"
  | WireKey.sortField _ => "sort"
  | WireKey.sortDirection _ => "sort"

/-- The sort-entry index of a wire key (0 for non-sort keys). -/
def wkIdx : WireKey → Nat
  | WireKey.sortField i => i
  | WireKey.sortDirection i => i
  | _ => 0

/-- `d[k] = v` on the wire-key dict built by `OrderedDict.update`: replace
in place if present, append otherwise. -/
def wireSet : List (WireKey × WireValue) → WireKey → WireValue → List (WireKey × WireValue)
  | [], k, v => [(k, v)]
  | p :: rest, k, v => if p.1 = k then (k, v) :: rest else p :: wireSet rest k v

/-- `new_params.update(d)` of `_process_params`: fold the entries of `d`
into the ordered dict. -/
def wireUpdate (d e : List (WireKey × WireValue)) : List (WireKey × WireValue) :=
  e.foldl (fun acc kv => wireSet acc kv.1 kv.2) d

/-- Lexicographic comparison of character lists by code point — the
comparison Python applies to strings. -/
def lexLe : List Char → List Char → Bool
  | [], _ => true
  | _ :: _, [] => false
  | a :: as, b :: bs => if a = b then lexLe as bs else decide (a.toNat < b.toNat)

/-- Python string comparison, by code points. -/
def pyStrLe (a b : String) : Bool := lexLe a.data b.data

/-- The comparison `sorted(params.items())` applies: by option name (values
are only compared when names tie, which cannot happen for dict items). -/
def paramLe (a b : String × ParamValue) : Bool := pyStrLe a.1 b.1

/-- Insert into a sorted list, keeping existing order among comparable
elements. -/
def pyInsert (le : α → α → Bool) (x : α) : List α → List α
  | [] => [x]
  | y :: ys => if le y x then y :: pyInsert le x ys else x :: y :: ys

/-- `sorted(...)`: a stable comparison sort.  On lists with pairwise
distinct keys — the only inputs a Python dict can produce — every
comparison sort returns the same list, so insertion sort is a faithful
embedding. -/
def pySorted (le : α → α → Bool) : List α → List α
  | [] => []
  | x :: xs => pyInsert le x (pySorted le xs)

/-- One iteration of the `_process_params` loop: look the option name up
and serialize its value (`AirtableParams._get(param_name)` then
`params_class(param_value).to_param_dict()`), and merge the wire pairs into
the ordered dict (`new_params.update(...)`); a lookup or validation failure
propagates out of the loop, discarding the partial dict. -/
def ppStep (acc : List (WireKey × WireValue)) (p : String × ParamValue) :
    Except ParamError (List (WireKey × WireValue)) :=
  match wirePairs p.1 p.2 with
  | Except.ok w => Except.ok (wireUpdate acc w)
  | Except.error e => Except.error e

/-- `AirtableBase._process_params` (lines 129-139 of
`airtable/airtable.py`): iterate the option mapping in sorted order of
option names, look each name up (unknown names fail), validate and
serialize its value, and merge the resulting wire pairs into one ordered
dict. -/
def process_params (params : List (String × ParamValue)) : Except ParamError (List (WireKey × WireValue)) :=
  (pySorted paramLe params).foldlM ppStep []

/-- The wire pairs of one option, when it serializes successfully. -/
def wireOut (p : String × ParamValue) : List (WireKey × WireValue) :=
  match wirePairs p.1 p.2 with
  | Except.ok w => w
  | Except.error _ => []

theorem char_toNat_inj {a b : Char} (h : a.toNat = b.toNat) : a = b := by
  rw [← Char.ofNat_toNat a, h, Char.ofNat_toNat]

theorem lexLe_total : ∀ a b : List Char, lexLe a b = true ∨ lexLe b a = true := by
  intro a
  induction a with
  | nil => intro b; left; rfl
  | cons x xs ih =>
      intro b
      cases b with
      | nil => right; rfl
      | cons y ys =>
          by_cases hxy : x = y
          · subst hxy
            rcases ih ys with h | h
            · left; simpa [lexLe] using h
            · right; simpa [lexLe] using h
          · have hne : x.toNat ≠ y.toNat := fun h => hxy (char_toNat_inj h)
            rcases Nat.lt_or_ge x.toNat y.toNat with h | h
            · left; simp [lexLe, hxy, h]
            · right
              have hlt : y.toNat < x.toNat := lt_of_le_of_ne h (Ne.symm hne)
              have hyx : y ≠ x := fun hy => hxy hy.symm
              simp [lexLe, hyx, hlt]

theorem lexLe_trans :
    ∀ a b c : List Char, lexLe a b = true → lexLe b c = true → lexLe a c = true := by
  intro a
  induction a with
  | nil => intro b c _ _; rfl
  | cons x xs ih =>
      intro b c hab hbc
      cases b with
      | nil => simp [lexLe] at hab
      | cons y ys =>
          cases c with
          | nil => simp [lexLe] at hbc
          | cons z zs =>
              by_cases hxy : x = y
              · subst hxy
                by_cases hyz : x = z
                · subst hyz
                  simp only [lexLe, if_pos rfl] at hab hbc ⊢
                  exact ih ys zs hab hbc
                · simpa [lexLe, hyz] using (by simpa [lexLe, hyz] using hbc : decide (x.toNat < z.toNat) = true)
              · have hab' : x.toNat < y.toNat := by simpa [lexLe, hxy] using hab
                by_cases hyz : y = z
                · subst hyz
                  simp [lexLe, hxy, hab']
                · have hbc' : y.toNat < z.toNat := by simpa [lexLe, hyz] using hbc
                  have hxz : x.toNat < z.toNat := lt_trans hab' hbc'
                  have : x ≠ z := fun h => by
                    subst h
                    exact lt_irrefl _ hxz
                  simp [lexLe, this, hxz]

theorem lexLe_antisymm :
    ∀ a b : List Char, lexLe a b = true → lexLe b a = true → a = b := by
  intro a
  induction a with
  | nil =>
      intro b _ hba
      cases b with
      | nil => rfl
      | cons y ys => simp [lexLe] at hba
  | cons x xs ih =>
      intro b hab hba
      cases b with
      | nil => simp [lexLe] at hab
      | cons y ys =>
          by_cases hxy : x = y
          · subst hxy
            have h1 : lexLe xs ys = true := by simpa [lexLe] using hab
            have h2 : lexLe ys xs = true := by simpa [lexLe] using hba
            rw [ih ys h1 h2]
          · have hyx : y ≠ x := fun hy => hxy hy.symm
            have h1 : x.toNat < y.toNat := by simpa [lexLe, hxy] using hab
            have h2 : y.toNat < x.toNat := by simpa [lexLe, hyx] using hba
            exact absurd (lt_trans h1 h2) (lt_irrefl _)

theorem pyStrLe_antisymm {a b : String} (hab : pyStrLe a b = true) (hba : pyStrLe b a = true) :
    a = b :=
  String.ext (lexLe_antisymm _ _ hab hba)

theorem paramLe_total (a b : String × ParamValue) : paramLe a b = true ∨ paramLe b a = true :=
  lexLe_total a.1.data b.1.data

theorem paramLe_trans {a b c : String × ParamValue}
    (hab : paramLe a b = true) (hbc : paramLe b c = true) : paramLe a c = true :=
  lexLe_trans _ _ _ hab hbc

theorem pyInsert_perm (le : α → α → Bool) (x : α) :
    ∀ l : List α, (pyInsert le x l).Perm (x :: l) := by
  intro l
  induction l with
  | nil => simp [pyInsert]
  | cons y ys ih =>
      unfold pyInsert
      by_cases h : le y x = true
      · rw [if_pos h]
        exact (ih.cons y).trans (List.Perm.swap x y ys)
      · rw [if_neg h]

theorem pySorted_perm (le : α → α → Bool) : ∀ l : List α, (pySorted le l).Perm l := by
  intro l
  induction l with
  | nil => simp [pySorted]
  | cons x xs ih =>
      unfold pySorted
      exact (pyInsert_perm le x (pySorted le xs)).trans (ih.cons x)

theorem mem_pyInsert {le : α → α → Bool} {x z : α} {l : List α} :
    z ∈ pyInsert le x l ↔ z = x ∨ z ∈ l := by
  rw [(pyInsert_perm le x l).mem_iff]
  simp

theorem pyInsert_pairwise {le : α → α → Bool}
    (htotal : ∀ a b, le a b = true ∨ le b a = true)
    (htrans : ∀ {a b c}, le a b = true → le b c = true → le a c = true)
    (x : α) :
    ∀ {l : List α}, l.Pairwise (fun a b => le a b = true) →
      (pyInsert le x l).Pairwise (fun a b => le a b = true) := by
  intro l
  induction l with
  | nil => intro _; simp [pyInsert]
  | cons y ys ih =>
      intro hp
      rw [List.pairwise_cons] at hp
      obtain ⟨hy, hys⟩ := hp
      unfold pyInsert
      by_cases h : le y x = true
      · rw [if_pos h]
        refine List.Pairwise.cons ?_ (ih hys)
        intro z hz
        rcases mem_pyInsert.mp hz with rfl | hz
        · exact h
        · exact hy z hz
      · rw [if_neg h]
        have hxy : le x y = true := (htotal x y).resolve_right (fun hc => h hc)
        refine List.Pairwise.cons ?_ (List.Pairwise.cons hy hys)
        intro z hz
        rcases List.mem_cons.mp hz with rfl | hz
        · exact hxy
        · exact htrans hxy (hy z hz)

theorem pySorted_pairwise {le : α → α → Bool}
    (htotal : ∀ a b, le a b = true ∨ le b a = true)
    (htrans : ∀ {a b c}, le a b = true → le b c = true → le a c = true) :
    ∀ l : List α, (pySorted le l).Pairwise (fun a b => le a b = true) := by
  intro l
  induction l with
  | nil => simp [pySorted]
  | cons x xs ih => exact pyInsert_pairwise htotal htrans x ih

/-- On lists whose keys are pairwise distinct, the sorted order is unique:
two permuted inputs sort to the same list. -/
theorem pySorted_eq_of_perm {params params' : List (String × ParamValue)}
    (hperm : params'.Perm params)
    (hnodup : (params.map Prod.fst).Nodup) :
    pySorted paramLe params' = pySorted paramLe params := by
  set R : (String × ParamValue) → (String × ParamValue) → Prop :=
    fun a b => paramLe a b = true ∧ a.1 ≠ b.1 with hR
  haveI : IsAntisymm (String × ParamValue) R := by
    constructor
    intro a b hab hba
    exact absurd (pyStrLe_antisymm hab.1 hba.1) hab.2
  have hperm2 : (pySorted paramLe params').Perm (pySorted paramLe params) :=
    ((pySorted_perm paramLe params').trans hperm).trans (pySorted_perm paramLe params).symm
  have hstrict : ∀ (l : List (String × ParamValue)),
      (l.map Prod.fst).Nodup → l.Pairwise (fun a b => paramLe a b = true) → l.Pairwise R := by
    intro l hn hp
    have hne : l.Pairwise (fun a b => a.1 ≠ b.1) := List.pairwise_map.mp hn
    exact (hp.and hne).imp (fun h => h)
  have hnodup' : (params'.map Prod.fst).Nodup := ((hperm.map Prod.fst).nodup_iff).mpr hnodup
  have hns : ((pySorted paramLe params).map Prod.fst).Nodup :=
    (((pySorted_perm paramLe params).map Prod.fst).nodup_iff).mpr hnodup
  have hns' : ((pySorted paramLe params').map Prod.fst).Nodup :=
    (((pySorted_perm paramLe params').map Prod.fst).nodup_iff).mpr hnodup'
  exact List.eq_of_perm_of_sorted hperm2
    (hstrict _ hns' (pySorted_pairwise paramLe_total paramLe_trans params'))
    (hstrict _ hns (pySorted_pairwise paramLe_total paramLe_trans params))

theorem sortEntryWire_keys (i : Nat) (e : String) :
    (sortEntryWire i e).map Prod.fst = [WireKey.sortField i, WireKey.sortDirection i] := by
  unfold sortEntryWire
  split <;> rfl

theorem sortWire_owner : ∀ (l : List String) (i : Nat) (k : WireKey),
    k ∈ (sortWire i l).map Prod.fst → keyOwner k = "sort" := by
  intro l
  induction l with
  | nil => intro i k hk; simp [sortWire] at hk
  | cons e rest ih =>
      intro i k hk
      simp only [sortWire, List.map_append, List.mem_append, sortEntryWire_keys] at hk
      rcases hk with hk | hk
      · simp at hk
        rcases hk with rfl | rfl <;> rfl
      · exact ih _ _ hk

theorem sortWire_idx_ge : ∀ (l : List String) (i : Nat) (k : WireKey),
    k ∈ (sortWire i l).map Prod.fst → i ≤ wkIdx k := by
  intro l
  induction l with
  | nil => intro i k hk; simp [sortWire] at hk
  | cons e rest ih =>
      intro i k hk
      simp only [sortWire, List.map_append, List.mem_append, sortEntryWire_keys] at hk
      rcases hk with hk | hk
      · simp at hk
        rcases hk with rfl | rfl <;> exact le_refl _
      · exact Nat.le_of_succ_le (ih _ _ hk)

theorem sortWire_nodup : ∀ (l : List String) (i : Nat), ((sortWire i l).map Prod.fst).Nodup := by
  intro l
  induction l with
  | nil => intro i; simp [sortWire]
  | cons e rest ih =>
      intro i
      simp only [sortWire, List.map_append]
      rw [List.nodup_append]
      refine ⟨?_, ih _, ?_⟩
      · rw [sortEntryWire_keys]
        simp
      · intro k hk1 hk2
        have hge : i + 1 ≤ wkIdx k := sortWire_idx_ge _ _ _ hk2
        rw [sortEntryWire_keys] at hk1
        rcases List.mem_cons.mp hk1 with rfl | hk1
        · simp [wkIdx] at hge
        · simp at hk1
          subst hk1
          simp [wkIdx] at hge

theorem wirePairs_owner {n : String} {v : ParamValue} {w : List (WireKey × WireValue)}
    (h : wirePairs n v = Except.ok w) :
    ∀ k ∈ w.map Prod.fst, keyOwner k = n := by
  unfold wirePairs at h
  split at h
  · cases h; intro k hk; simp at hk; subst hk; rfl
  · cases h; intro k hk; simp at hk; subst hk; rfl
  · split at h
    · cases h; intro k hk; simp at hk; subst hk; rfl
    · exact absurd h (by simp)
  · cases h; intro k hk; simp at hk; subst hk; rfl
  · cases h; intro k hk; simp at hk; subst hk; rfl
  · cases h; intro k hk; exact sortWire_owner _ _ _ hk
  · cases h; intro k hk; exact sortWire_owner _ _ _ hk
  · cases h; intro k hk; simp at hk; subst hk; rfl
  · cases h; intro k hk; simp at hk; subst hk; rfl
  · split at h <;> exact absurd h (by simp)

theorem wirePairs_nodup {n : String} {v : ParamValue} {w : List (WireKey × WireValue)}
    (h : wirePairs n v = Except.ok w) : (w.map Prod.fst).Nodup := by
  unfold wirePairs at h
  split at h
  · cases h; simp
  · cases h; simp
  · split at h
    · cases h; simp
    · exact absurd h (by simp)
  · cases h; simp
  · cases h; simp
  · cases h; exact sortWire_nodup _ _
  · cases h; exact sortWire_nodup _ _
  · cases h; simp
  · cases h; simp
  · split at h <;> exact absurd h (by simp)

theorem wirePairs_unknown (n : String) (v : ParamValue) (h : n ∉ vocab) :
    wirePairs n v = Except.error (ParamError.unknownParameter n) := by
  unfold wirePairs
  split
  · exact absurd (by simp [vocab]) h
  · exact absurd (by simp [vocab]) h
  · exact absurd (by simp [vocab]) h
  · exact absurd (by simp [vocab]) h
  · exact absurd (by simp [vocab]) h
  · exact absurd (by simp [vocab]) h
  · exact absurd (by simp [vocab]) h
  · exact absurd (by simp [vocab]) h
  · exact absurd (by simp [vocab]) h
  · rw [if_neg h]

theorem wireSet_fresh : ∀ (d : List (WireKey × WireValue)) (k : WireKey) (v : WireValue),
    (∀ p ∈ d, p.1 ≠ k) → wireSet d k v = d ++ [(k, v)] := by
  intro d k v
  induction d with
  | nil => intro _; rfl
  | cons p rest ih =>
      intro h
      have hp : p.1 ≠ k := h p (by simp)
      simp only [wireSet, if_neg hp, List.cons_append]
      rw [ih (fun q hq => h q (by simp [hq]))]

theorem wireUpdate_append : ∀ (e d : List (WireKey × WireValue)),
    (∀ q ∈ e, ∀ p ∈ d, p.1 ≠ q.1) → ((e.map Prod.fst).Nodup) →
    wireUpdate d e = d ++ e := by
  intro e
  induction e with
  | nil => intro d _ _; simp [wireUpdate]
  | cons q e' ih =>
      intro d hfresh hnodup
      have h1 : wireSet d q.1 q.2 = d ++ [q] := by
        rw [wireSet_fresh d q.1 q.2 (fun p hp => hfresh q (by simp) p hp)]
      have hfresh' : ∀ r ∈ e', ∀ p ∈ d ++ [q], p.1 ≠ r.1 := by
        intro r hr p hp
        rcases List.mem_append.mp hp with hp | hp
        · exact hfresh r (by simp [hr]) p hp
        · simp at hp
          subst hp
          rw [List.map_cons, List.nodup_cons] at hnodup
          intro heq
          exact hnodup.1 (heq ▸ List.mem_map.mpr ⟨r, hr, rfl⟩)
      have hnodup' : (e'.map Prod.fst).Nodup := by
        rw [List.map_cons, List.nodup_cons] at hnodup
        exact hnodup.2
      have hrec := ih (d ++ [q]) hfresh' hnodup'
      show wireUpdate (wireSet d q.1 q.2) e' = d ++ q :: e'
      rw [h1, hrec, List.append_assoc]
      rfl

theorem foldlM_ppStep_ok : ∀ (l : List (String × ParamValue)) (acc : List (WireKey × WireValue)),
    (∀ p ∈ l, ∃ w, wirePairs p.1 p.2 = Except.ok w) →
    ((l.map Prod.fst).Nodup) →
    (∀ k ∈ acc.map Prod.fst, keyOwner k ∉ l.map Prod.fst) →
    l.foldlM ppStep acc = Except.ok (acc ++ l.flatMap wireOut) := by
  intro l
  induction l with
  | nil =>
      intro acc _ _ _
      rw [List.foldlM_nil, List.flatMap_nil, List.append_nil]
      rfl
  | cons p l' ih =>
      intro acc hvalid hnodup howner
      obtain ⟨w, hw⟩ := hvalid p (by simp)
      have hfresh : ∀ q ∈ w, ∀ r ∈ acc, r.1 ≠ q.1 := by
        intro q hq r hr heq
        have hql : keyOwner q.1 = p.1 :=
          wirePairs_owner hw q.1 (List.mem_map.mpr ⟨q, hq, rfl⟩)
        have hro := howner r.1 (List.mem_map.mpr ⟨r, hr, rfl⟩)
        exact hro (by rw [heq, hql]; simp)
      have hstep : ppStep acc p = Except.ok (acc ++ w) := by
        unfold ppStep
        rw [hw]
        show Except.ok (wireUpdate acc w) = _
        rw [wireUpdate_append w acc hfresh (wirePairs_nodup hw)]
      have hvalid' : ∀ q ∈ l', ∃ u, wirePairs q.1 q.2 = Except.ok u :=
        fun q hq => hvalid q (by simp [hq])
      have hnodup' : (l'.map Prod.fst).Nodup := by
        rw [List.map_cons, List.nodup_cons] at hnodup
        exact hnodup.2
      have howner' : ∀ k ∈ (acc ++ w).map Prod.fst, keyOwner k ∉ l'.map Prod.fst := by
        intro k hk
        rw [List.map_append] at hk
        rcases List.mem_append.mp hk with hk | hk
        · have hko := howner k hk
          intro hc
          exact hko (by simp [hc])
        · rw [wirePairs_owner hw k hk]
          rw [List.map_cons, List.nodup_cons] at hnodup
          exact hnodup.1
      rw [List.foldlM_cons, hstep]
      show l'.foldlM ppStep (acc ++ w) = _
      rw [ih (acc ++ w) hvalid' hnodup' howner']
      have hout : wireOut p = w := by unfold wireOut; rw [hw]
      rw [List.flatMap_cons, hout, List.append_assoc]

theorem foldlM_ppStep_fails : ∀ (l : List (String × ParamValue)) (acc : List (WireKey × WireValue)),
    (∃ p ∈ l, p.1 ∉ vocab) →
    ∃ e, l.foldlM ppStep acc = Except.error e := by
  intro l
  induction l with
  | nil => intro acc hbad; simp at hbad
  | cons p l' ih =>
      intro acc hbad
      cases hw : wirePairs p.1 p.2 with
      | error e =>
          refine ⟨e, ?_⟩
          rw [List.foldlM_cons]
          have hstep : ppStep acc p = Except.error e := by
            unfold ppStep
            rw [hw]
          rw [hstep]
          rfl
      | ok w =>
          have hstep : ppStep acc p = Except.ok (wireUpdate acc w) := by
            unfold ppStep
            rw [hw]
          have hbad' : ∃ q ∈ l', q.1 ∉ vocab := by
            obtain ⟨q, hq, hqv⟩ := hbad
            rcases List.mem_cons.mp hq with rfl | hq
            · rw [wirePairs_unknown q.1 q.2 hqv] at hw
              exact absurd hw (by simp)
            · exact ⟨q, hq, hqv⟩
          rw [List.foldlM_cons, hstep]
          exact ih (wireUpdate acc w) hbad'

theorem foldlM_ppStep_unknown : ∀ (l : List (String × ParamValue)) (acc : List (WireKey × WireValue)),
    (∀ p ∈ l, p.1 ∈ vocab → ∃ w, wirePairs p.1 p.2 = Except.ok w) →
    (∃ p ∈ l, p.1 ∉ vocab) →
    ∃ name, name ∉ vocab ∧
      l.foldlM ppStep acc = Except.error (ParamError.unknownParameter name) := by
  intro l
  induction l with
  | nil => intro acc _ hbad; simp at hbad
  | cons p l' ih =>
      intro acc hvalid hbad
      by_cases hv : p.1 ∈ vocab
      · obtain ⟨w, hw⟩ := hvalid p (by simp) hv
        have hstep : ppStep acc p = Except.ok (wireUpdate acc w) := by
          unfold ppStep
          rw [hw]
        have hbad' : ∃ q ∈ l', q.1 ∉ vocab := by
          obtain ⟨q, hq, hqv⟩ := hbad
          rcases List.mem_cons.mp hq with rfl | hq
          · exact absurd hv hqv
          · exact ⟨q, hq, hqv⟩
        have hvalid' : ∀ q ∈ l', q.1 ∈ vocab → ∃ u, wirePairs q.1 q.2 = Except.ok u :=
          fun q hq => hvalid q (by simp [hq])
        rw [List.foldlM_cons, hstep]
        exact ih (wireUpdate acc w) hvalid' hbad'
      · refine ⟨p.1, hv, ?_⟩
        rw [List.foldlM_cons]
        have hstep : ppStep acc p = Except.error (ParamError.unknownParameter p.1) := by
          unfold ppStep
          rw [wirePairs_unknown p.1 p.2 hv]
        rw [hstep]
        rfl

/-- C7: for every mapping of recognized option names (pairwise distinct, as
Python dict keys are) to valid values, the encoder succeeds and its output
is exactly the concatenation, in sorted order of option names, of the wire
pairs each option serializes to; in particular its key list is exactly the
wire keys derived from the options present, in that order, and the encoding
is deterministic: every permutation of the same input mapping encodes to
the syntactically identical output. -/
theorem process_params_sorted_keys_deterministic
    (params : List (String × ParamValue))
    (hnodup : (params.map Prod.fst).Nodup)
    (hvalid : ∀ p ∈ params, ∃ w, wirePairs p.1 p.2 = Except.ok w) :
    process_params params = Except.ok ((pySorted paramLe params).flatMap wireOut) ∧
    ((pySorted paramLe params).flatMap wireOut).map Prod.fst =
      (pySorted paramLe params).flatMap (fun p => (wireOut p).map Prod.fst) ∧
    ∀ params', params'.Perm params → process_params params' = process_params params := by
  have hpermS := pySorted_perm paramLe params
  have hvalidS : ∀ p ∈ pySorted paramLe params, ∃ w, wirePairs p.1 p.2 = Except.ok w :=
    fun p hp => hvalid p (hpermS.mem_iff.mp hp)
  have hnodupS : ((pySorted paramLe params).map Prod.fst).Nodup :=
    ((hpermS.map Prod.fst).nodup_iff).mpr hnodup
  refine ⟨?_, ?_, ?_⟩
  · unfold process_params
    exact foldlM_ppStep_ok _ [] hvalidS hnodupS (by intro k hk; simp at hk)
  · have hmap : ∀ (l : List (String × ParamValue)),
        (l.flatMap wireOut).map Prod.fst = l.flatMap (fun p => (wireOut p).map Prod.fst) := by
      intro l
      induction l with
      | nil => rfl
      | cons a l ih => simp [List.flatMap_cons, List.map_append, ih]
    exact hmap _
  · intro params' hperm
    unfold process_params
    rw [pySorted_eq_of_perm hperm hnodup]

/-- A concrete valid option mapping exercising every shape of wire output,
for the encoder witness. -/
def exampleParams : List (String × ParamValue) :=
  [("view", ParamValue.str "Grid view"), ("page_size", ParamValue.num 50),
   ("sort", ParamValue.strList ["A", "-B"]), ("max_records", ParamValue.num 10)]

theorem process_params_sorted_witness :
    (exampleParams.map Prod.fst).Nodup ∧
    (∀ p ∈ exampleParams, ∃ w, wirePairs p.1 p.2 = Except.ok w) ∧
    (process_params exampleParams = Except.ok ((pySorted paramLe exampleParams).flatMap wireOut) ∧
     ((pySorted paramLe exampleParams).flatMap wireOut).map Prod.fst =
       (pySorted paramLe exampleParams).flatMap (fun p => (wireOut p).map Prod.fst) ∧
     ∀ params', params'.Perm exampleParams → process_params params' = process_params exampleParams) := by
  have hvalid : ∀ p ∈ exampleParams, ∃ w, wirePairs p.1 p.2 = Except.ok w := by
    intro p hp
    simp [exampleParams] at hp
    rcases hp with rfl | rfl | rfl | rfl <;> exact ⟨_, rfl⟩
  exact ⟨by decide, hvalid,
    process_params_sorted_keys_deterministic exampleParams (by decide) hvalid⟩

/-- C8, counterexample: the option mapping with the unrecognized name "zzz"
and an invalid page_size value fails with `ValidationError`, not
`UnknownParameterError` — "page_size" sorts before "zzz", so its validation
failure is raised before the unknown name is ever looked up. -/
theorem unknown_name_fails_with_validation_error :
    (("zzz" : String) ∉ vocab) ∧
    process_params [("page_size", ParamValue.num 101), ("zzz", ParamValue.str "v")] =
      Except.error (ParamError.validationError "page_size must be less than or equal to 100") ∧
    ∀ name, (Except.error (ParamError.validationError "page_size must be less than or equal to 100") :
        Except ParamError (List (WireKey × WireValue))) ≠
      Except.error (ParamError.unknownParameter name) := by
  refine ⟨by decide, rfl, ?_⟩
  intro name h
  simp at h

/-- C8, as amended: every option mapping containing an unrecognized option
name fails and encodes nothing — whatever the other option values are; and
when every recognized option it contains carries a valid value, the failure
is `UnknownParameterError` for an unrecognized name. -/
theorem process_params_unknown_name_fails
    (params : List (String × ParamValue))
    (hbad : ∃ p ∈ params, p.1 ∉ vocab) :
    (∃ e, process_params params = Except.error e) ∧
    ((∀ p ∈ params, p.1 ∈ vocab → ∃ w, wirePairs p.1 p.2 = Except.ok w) →
      ∃ name, name ∉ vocab ∧
        process_params params = Except.error (ParamError.unknownParameter name)) := by
  have hbadS : ∃ p ∈ pySorted paramLe params, p.1 ∉ vocab := by
    obtain ⟨p, hp, hv⟩ := hbad
    exact ⟨p, (pySorted_perm paramLe params).mem_iff.mpr hp, hv⟩
  constructor
  · unfold process_params
    exact foldlM_ppStep_fails _ [] hbadS
  · intro hvalid
    unfold process_params
    apply foldlM_ppStep_unknown
    · intro p hp
      exact hvalid p ((pySorted_perm paramLe params).mem_iff.mp hp)
    · exact hbadS

/-- The mixed option mapping of the counterexample — an invalid recognized
value alongside an unrecognized name — for the witness: the unconditional
failure clause applies to it even though the refinement's validity condition
does not hold. -/
def mixedParams : List (String × ParamValue) :=
  [("page_size", ParamValue.num 101), ("zzz", ParamValue.str "v")]

theorem process_params_unknown_witness :
    (∃ p ∈ mixedParams, p.1 ∉ vocab) ∧
    ((∃ e, process_params mixedParams = Except.error e) ∧
     ((∀ p ∈ mixedParams, p.1 ∈ vocab → ∃ w, wirePairs p.1 p.2 = Except.ok w) →
       ∃ name, name ∉ vocab ∧
         process_params mixedParams = Except.error (ParamError.unknownParameter name))) := by
  have hbad : ∃ p ∈ mixedParams, p.1 ∉ vocab :=
    ⟨("zzz", ParamValue.str "v"), by simp [mixedParams], by decide⟩
  exact ⟨hbad, process_params_unknown_name_fails mixedParams hbad⟩

/-- One HTTP call a batch operation issues. -/
inductive ApiCall
  | post (table : String) (fields : Record) (typecast : Bool)
  | delete (table : String) (record_id : String)
deriving DecidableEq

/-- One observable client event: an HTTP call, or a `time.sleep` of the
given number of seconds. -/
inductive ApiEvent
  | call (c : ApiCall)
  | sleep (seconds : ℚ)
deriving DecidableEq

/-- `AirtableBase.API_LIMIT`: 1/5 second between calls (5 per second). -/
def API_LIMIT : ℚ := 1 / 5

/-- `AirtableBase._batch_request` (lines 348-354 of `airtable/airtable.py`):
call `func` on each item in order, collecting the responses, and sleep
`API_LIMIT` seconds after each call.  `func` yields the event trace of one
call together with its response; the batch trace interleaves those traces
with the sleeps. -/
def batch_request (func : α → List ApiEvent × β) : List α → List ApiEvent × List β
  | [] => ([], [])
  | x :: xs =>
      let r := func x
      let rest := batch_request func xs
      (r.1 ++ ApiEvent.sleep API_LIMIT :: rest.1, r.2 :: rest.2)

/-- `AirtableBase.insert_in_table`, as a trace: one POST of the
fields/typecast body to the table URL, returning the decoded response. -/
def insert_in_table_ev (b : Backend) (table : String) (fields : Record) (typecast : Bool) :
    List ApiEvent × Record :=
  ([ApiEvent.call (ApiCall.post table fields typecast)], b.postRec table fields typecast)

/-- `AirtableBase.delete_in_table`, as a trace: one DELETE of the record
URL. -/
def delete_in_table_ev (b : Backend) (table record_id : String) : List ApiEvent × Record :=
  ([ApiEvent.call (ApiCall.delete table record_id)], b.deleteRec table record_id)

/-- `AirtableBase.batch_insert_in_table` (and `Airtable.batch_insert`):
`_batch_request` over the single-record insert, one item per record. -/
def batch_insert_in_table (b : Backend) (table : String) (records : List Record) (typecast : Bool) :
    List ApiEvent × List Record :=
  batch_request (fun fields => insert_in_table_ev b table fields typecast) records

/-- `AirtableBase.batch_delete`: `_batch_request` over the single-record
delete, one item per record id. -/
def batch_delete (b : Backend) (table : String) (record_ids : List String) :
    List ApiEvent × List Record :=
  batch_request (fun rid => delete_in_table_ev b table rid) record_ids

/-- The HTTP calls of a trace, in order. -/
def callsOf : List ApiEvent → List ApiCall
  | [] => []
  | ApiEvent.call c :: rest => c :: callsOf rest
  | ApiEvent.sleep _ :: rest => callsOf rest

/-- The start times of the calls of a trace executed from time `t`, the
calls themselves taking no model time and each sleep advancing the clock. -/
def callTimes (t : ℚ) : List ApiEvent → List ℚ
  | [] => []
  | ApiEvent.call _ :: rest => t :: callTimes t rest
  | ApiEvent.sleep d :: rest => callTimes (t + d) rest

theorem batch_request_trace (f : α → List ApiEvent × β) (g : α → ApiCall)
    (hf : ∀ x, (f x).1 = [ApiEvent.call (g x)]) :
    ∀ items : List α, (batch_request f items).1 =
      items.flatMap (fun x => [ApiEvent.call (g x), ApiEvent.sleep API_LIMIT]) := by
  intro items
  induction items with
  | nil => rfl
  | cons x xs ih => simp [batch_request, hf x, ih, List.flatMap_cons]

theorem batch_request_responses (f : α → List ApiEvent × β) :
    ∀ items : List α, (batch_request f items).2 = items.map (fun x => (f x).2) := by
  intro items
  induction items with
  | nil => rfl
  | cons x xs ih => simp [batch_request, ih]

theorem callsOf_flat (g : α → ApiCall) :
    ∀ items : List α,
      callsOf (items.flatMap (fun x => [ApiEvent.call (g x), ApiEvent.sleep API_LIMIT])) =
        items.map g := by
  intro items
  induction items with
  | nil => rfl
  | cons x xs ih =>
      rw [List.flatMap_cons, List.cons_append, List.cons_append, List.nil_append]
      simp only [callsOf]
      rw [ih, List.map_cons]

theorem callTimes_flat_chain (g : α → ApiCall) :
    ∀ (items : List α) (t : ℚ),
      List.Chain' (fun a c => a + API_LIMIT ≤ c)
        (callTimes t (items.flatMap (fun x => [ApiEvent.call (g x), ApiEvent.sleep API_LIMIT]))) := by
  intro items
  induction items with
  | nil => intro t; simp [callTimes]
  | cons x xs ih =>
      intro t
      cases xs with
      | nil => simp [List.flatMap_cons, callTimes]
      | cons y ys =>
          show List.Chain' _ (t :: callTimes (t + API_LIMIT)
            ((y :: ys).flatMap (fun x => [ApiEvent.call (g x), ApiEvent.sleep API_LIMIT])))
          have hh : callTimes (t + API_LIMIT)
              ((y :: ys).flatMap (fun x => [ApiEvent.call (g x), ApiEvent.sleep API_LIMIT])) =
              (t + API_LIMIT) :: callTimes (t + API_LIMIT)
                (ApiEvent.sleep API_LIMIT :: (ys.flatMap (fun x => [ApiEvent.call (g x), ApiEvent.sleep API_LIMIT]))) := rfl
          rw [hh]
          exact List.Chain'.cons (le_refl _) (by simpa [List.flatMap_cons, callTimes] using ih (t + API_LIMIT))

/-- C9: batch-insert of a list of records issues exactly one POST per
record, in input order (and returns one response per record, in order);
batch-delete of a list of record ids issues exactly one DELETE per id, in
order; and in both traces, executed from any start time, the start times of
consecutive calls are at least `API_LIMIT` seconds apart, a sleep of
`API_LIMIT` following every call. -/
theorem batch_insert_and_delete_paced
    (b : Backend) (table : String) (records : List Record) (typecast : Bool)
    (record_ids : List String) (t : ℚ) :
    callsOf (batch_insert_in_table b table records typecast).1 =
      records.map (fun fields => ApiCall.post table fields typecast) ∧
    (batch_insert_in_table b table records typecast).2 =
      records.map (fun fields => b.postRec table fields typecast) ∧
    callsOf (batch_delete b table record_ids).1 =
      record_ids.map (fun rid => ApiCall.delete table rid) ∧
    List.Chain' (fun a c => a + API_LIMIT ≤ c)
      (callTimes t (batch_insert_in_table b table records typecast).1) ∧
    List.Chain' (fun a c => a + API_LIMIT ≤ c)
      (callTimes t (batch_delete b table record_ids).1) := by
  have hins : (batch_insert_in_table b table records typecast).1 =
      records.flatMap (fun fields =>
        [ApiEvent.call (ApiCall.post table fields typecast), ApiEvent.sleep API_LIMIT]) :=
    batch_request_trace _ (fun fields => ApiCall.post table fields typecast) (fun _ => rfl) records
  have hdel : (batch_delete b table record_ids).1 =
      record_ids.flatMap (fun rid =>
        [ApiEvent.call (ApiCall.delete table rid), ApiEvent.sleep API_LIMIT]) :=
    batch_request_trace _ (fun rid => ApiCall.delete table rid) (fun _ => rfl) record_ids
  refine ⟨?_, ?_, ?_, ?_, ?_⟩
  · rw [hins]
    exact callsOf_flat _ records
  · exact batch_request_responses _ records
  · rw [hdel]
    exact callsOf_flat _ record_ids
  · rw [hins]
    exact callTimes_flat_chain _ records t
  · rw [hdel]
    exact callTimes_flat_chain _ record_ids t

end AirtableSpec
